import Mathlib

/-!
Verification of the parser-combinator engine in `nlparse2.py`.

The engine parses flat token sequences with backtracking combinators and
builds labeled constituent trees.  Python tuples of words become `List String`,
tuples of children become `List Constituent`, an absent tag becomes `none`.
A parser (Python: an object whose `__call__` is a generator of pairs
`(constituent, remaining tokens)`) becomes a function from a token list to the
list of produced pairs, in generation order.

The one non-lazy combinator, `StarParser`, runs a `while` loop that can
genuinely diverge (when the underlying parser's first result consumes no
tokens); its loop is therefore embedded with explicit fuel, `none` standing
for a run that has not finished within the given fuel.  A `some` result is
fuel-stable (see `starLoop_mono`), so it is exactly the Python loop's answer.
-/

/-- Tree node built by the parsers (Python class `Constituent`): a category
tag (`None` becomes `none`), the ordered children, and the linear word list
of the constituent. -/
structure Constituent where
  tag : Option String
  children : List Constituent
  words : List String

/-- Concatenation of two constituents (Python `Constituent.__add__`): a new
untagged node with the two operands as children and the words concatenated. -/
def concatC (a b : Constituent) : Constituent :=
  ⟨none, [a, b], a.words ++ b.words⟩

/-- Relabeling (Python `Constituent.__matmul__`): same children and words,
tag replaced. -/
def relabel (c : Constituent) (t : String) : Constituent :=
  ⟨some t, c.children, c.words⟩

mutual

/-- Structural comparison of two constituents (Python `Constituent.__eq__`
in the `isinstance` branch): tags, children (elementwise, recursively) and
words are compared by content. -/
def ceq : Constituent → Constituent → Bool
  | ⟨t1, ch1, w1⟩, ⟨t2, ch2, w2⟩ => t1 == t2 && ceqChildren ch1 ch2 && w1 == w2

def ceqChildren : List Constituent → List Constituent → Bool
  | [], [] => true
  | x :: xs, y :: ys => ceq x y && ceqChildren xs ys
  | _, _ => false

end

mutual

/-- Decidable structural equality of constituents, used to evaluate concrete
scenarios. -/
def decEqC : (a b : Constituent) → Decidable (a = b)
  | ⟨t1, ch1, w1⟩, ⟨t2, ch2, w2⟩ =>
    if h1 : t1 = t2 then
      match decEqChildren ch1 ch2 with
      | isTrue h2 =>
        if h3 : w1 = w2 then isTrue (by rw [h1, h2, h3]) else isFalse (by simp [h3])
      | isFalse h2 => isFalse (by simp [h2])
    else isFalse (by simp [h1])

def decEqChildren : (l1 l2 : List Constituent) → Decidable (l1 = l2)
  | [], [] => isTrue rfl
  | x :: xs, y :: ys =>
    match decEqC x y, decEqChildren xs ys with
    | isTrue h1, isTrue h2 => isTrue (by rw [h1, h2])
    | isFalse h1, _ => isFalse (by simp [h1])
    | _, isFalse h2 => isFalse (by simp [h2])
  | [], _ :: _ => isFalse (by simp)
  | _ :: _, [] => isFalse (by simp)

end

instance : DecidableEq Constituent := decEqC

/-- Values a `Constituent` may be compared against in Python: another
`Constituent`, or any value of a different runtime type. -/
inductive PyVal where
  | constituent (c : Constituent)
  | other

/-- Python `Constituent.__eq__` in full: the `isinstance` test sends any
non-`Constituent` operand to `False`, otherwise the structural comparison runs. -/
def eqPy (a : Constituent) : PyVal → Bool
  | .constituent b => ceq a b
  | .other => false

/-- Python `Constituent.__ne__`: the negation of `__eq__`. -/
def nePy (a : Constituent) (v : PyVal) : Bool :=
  !(eqPy a v)

/-- Result list of one parser invocation: the pairs
(constituent, remaining tokens) in the order the Python generator yields them. -/
abbrev ParseResult := List (Constituent × List String)

/-- A parser maps a token sequence to its results (Python `Parser.__call__`). -/
abbrev Parser := List String → ParseResult

/-- Literal parser (Python `WordParser.__call__`): at most one result; when the
input starts with the expected word, a leaf with that single word and the rest
of the input. -/
def wordP (w : String) : Parser := fun tokens =>
  match tokens with
  | [] => []
  | t :: rest => if t = w then [(⟨none, [], [w]⟩, rest)] else []

/-- Sequence combinator (Python `SeqParser.__call__`): for every result of
`p1`, run `p2` on its remainder and concatenate the constituents. -/
def seqP (p1 p2 : Parser) : Parser := fun tokens =>
  (p1 tokens).flatMap fun r1 =>
    (p2 r1.2).map fun r2 => (concatC r1.1 r2.1, r2.2)

/-- Alternation combinator (Python `AltParser.__call__`): all results of `p1`,
then all results of `p2`. -/
def altP (p1 p2 : Parser) : Parser := fun tokens =>
  p1 tokens ++ p2 tokens

/-- Tagging combinator (Python `TagParser.__call__`): relabel every result's
constituent. -/
def tagP (t : String) (p : Parser) : Parser := fun tokens =>
  (p tokens).map fun r => (relabel r.1 t, r.2)

/-- Filter combinator (Python `FilterParser.__call__`): keep exactly the
results whose constituent satisfies the predicate. -/
def filterP (pred : Constituent → Bool) (p : Parser) : Parser := fun tokens =>
  (p tokens).filter fun r => pred r.1

/-- Whole-input combinator (Python `WholeParser.__call__`): keep exactly the
results whose remainder is empty. -/
def wholeP (p : Parser) : Parser := fun tokens =>
  (p tokens).filter fun r => r.2.isEmpty

/-- Recursive closure (Python `RecursiveParser`): `fp` receives the parser
being defined and invocation delegates to the body.  The Python object ties
the knot on the heap; here the unfolding depth is made explicit, `n`
unfoldings deep, with the empty parser below depth zero.  For the grammar of
the source every unfolding consumes at least one token, so on a given input
a depth beyond the input length is never reached. -/
def recP (f : Parser → Parser) : Nat → Parser
  | 0 => fun _ => []
  | n + 1 => f (recP f n)

/-- Loop body of Python `StarParser.__call__`, with explicit fuel: while
tokens remain, take the first result of the underlying parser at the current
position, append its constituent and continue on its remainder; stop when the
parser yields nothing or the input is exhausted.  `none` means the Python
loop has not terminated within `fuel` iterations.  (The `result[0] is None`
check of the source is unreachable: no parser of the engine ever yields a
pair whose constituent is `None`.) -/
def starLoop (p : Parser) : Nat → List Constituent → List String → Option (List Constituent × List String)
  | 0, acc, tokens => if tokens.isEmpty then some (acc, tokens) else none
  | fuel + 1, acc, tokens =>
    if tokens.isEmpty then some (acc, tokens)
    else
      match (p tokens).head? with
      | none => some (acc, tokens)
      | some (tree, remainder) => starLoop p fuel (acc ++ [tree]) remainder

/-- Python `StarParser.__call__` under a given fuel: the single yielded
result packages the accumulated children with the concatenation of their
word lists, paired with the remaining tokens. -/
def starCallF (p : Parser) (fuel : Nat) (tokens : List String) : Option ParseResult :=
  (starLoop p fuel [] tokens).map fun r =>
    [(⟨none, r.1, (r.1.map Constituent.words).flatten⟩, r.2)]

/-- Python `StarParser.__call__` with the canonical fuel `tokens.length + 1`:
when each loop step strictly consumes input this fuel always suffices, and a
`some` answer is fuel-stable, hence equal to the Python loop's answer. -/
def starCall (p : Parser) (tokens : List String) : Option ParseResult :=
  starCallF p (tokens.length + 1) tokens

/-- Star combinator packaged as a `Parser` again, for feeding star parsers to
other combinators (Python allows `StarParser(StarParser(...))`).  At inputs
where the Python loop terminates this equals its answer; at diverging inputs
it is arbitrary (`[]`). -/
def starP (p : Parser) : Parser := fun tokens =>
  (starCall p tokens).getD []

/-- Divergence of the Python star loop on an input: no amount of fuel
finishes it. -/
def starDiverges (p : Parser) (tokens : List String) : Prop :=
  ∀ fuel, starLoop p fuel [] tokens = none

/-- Vowel test of the agreement filter: Python `re.match('[aeiou]', s)`
succeeds exactly when `s` has a first character and it is one of `aeiou`. -/
def startsWithVowel (s : String) : Bool :=
  match s.data with
  | [] => false
  | ch :: _ => ch = 'a' || ch = 'e' || ch = 'i' || ch = 'o' || ch = 'u'

/-- Complement class of the agreement filter: Python `re.match('[^aeiou]', s)`
succeeds exactly when `s` has a first character and it is not one of `aeiou`. -/
def startsWithNonVowel (s : String) : Bool :=
  match s.data with
  | [] => false
  | ch :: _ => !(ch = 'a' || ch = 'e' || ch = 'i' || ch = 'o' || ch = 'u')

/-- Agreement predicate (Python `FilterValidArticle.predicate`): pass unless
the first child is tagged `Compl` and the article disagrees with the next
word.  The Python `c.words[0]` / `c.words[1]` accesses are modeled with a
default; on every constituent the grammar feeds to this predicate they are
in bounds. -/
def validArticle (c : Constituent) : Bool :=
  match c.children.head? with
  | none => true
  | some child =>
    if child.tag ≠ some "Compl" then true
    else if c.words.getD 0 "" = "a" then startsWithNonVowel (c.words.getD 1 "")
    else if c.words.getD 0 "" = "an" then startsWithVowel (c.words.getD 1 "")
    else true

/-- Noun terminals of the grammar (`N` of the source). -/
def N : Parser :=
  tagP "N" (altP (altP (altP (wordP "fox") (wordP "wolf")) (wordP "ant")) (wordP "table"))

/-- Adjective terminals of the grammar (`Adj` of the source). -/
def Adj : Parser :=
  tagP "Adj" (altP (altP (altP (altP (wordP "quick") (wordP "brown")) (wordP "table"))
    (wordP "caught")) (wordP "adorable"))

/-- Determiner terminals of the grammar (`Compl` of the source). -/
def Compl : Parser :=
  tagP "Compl" (altP (altP (wordP "a") (wordP "an")) (wordP "the"))

/-- Verb terminals of the grammar (`V` of the source). -/
def V : Parser :=
  tagP "V" (altP (altP (wordP "jump") (wordP "jumped")) (wordP "caught"))

/-- Body of the recursive noun-phrase core:
`NP0 = recursive(lambda NP0: (N | Adj + NP0) @ 'NP')`. -/
def np0body (self : Parser) : Parser :=
  tagP "NP" (altP N (seqP Adj self))

/-- Noun-phrase core `NP0` of the source.  Every unfolding of the body
consumes at least one token through `Adj`, so unfolding depth
`tokens.length + 1` reproduces the unbounded recursion of the source. -/
def NP0 : Parser := fun tokens =>
  recP np0body (tokens.length + 1) tokens

/-- Noun phrase `NP = FilterValidArticle(Compl + NP0) @ 'NP'`. -/
def NP : Parser :=
  tagP "NP" (filterP validArticle (seqP Compl NP0))

/-- Verb phrase `VP = V @ 'VP'`. -/
def VP : Parser :=
  tagP "VP" V

/-- Sentence rule `S = (NP + VP) @ 'S'`. -/
def S : Parser :=
  tagP "S" (seqP NP VP)

/-- Hereditary tree invariant of the spec's data model: at every node of the
tree, a node with children carries exactly the in-order concatenation of its
children's word lists as its own words. -/
def treeInvB : Constituent → Bool
  | ⟨_, children, words⟩ =>
    (children.isEmpty || words == (children.map Constituent.words).flatten)
      && children.attach.all fun x => treeInvB x.1
decreasing_by
  have := List.sizeOf_lt_of_mem x.2
  simp only [Constituent.mk.sizeOf_spec] at *
  omega

/-- A parser produces only constituents satisfying the tree invariant. -/
def ProducesInv (p : Parser) : Prop :=
  ∀ ts c rest, (c, rest) ∈ p ts → treeInvB c = true

/-- A parser consumes exactly the prefix spanned by the constituent it
returns: the remainder is a suffix of the input and the constituent's words
followed by the remainder reassemble the input. -/
def Consumes (p : Parser) : Prop :=
  ∀ ts c rest, (c, rest) ∈ p ts → c.words ++ rest = ts ∧ rest.IsSuffix ts

/-- Every first result of the parser strictly consumes input. -/
def FirstConsumes (p : Parser) : Prop :=
  ∀ ts c rest, (p ts).head? = some (c, rest) → rest.length < ts.length

/-- Greedy accumulation relation of the star loop: from input `ts` the loop
collects exactly the children `ch` and stops with remainder `rest`, taking at
each position the first result of `p` and stopping exactly when the input is
empty or `p` yields nothing. -/
inductive Greedy (p : Parser) : List String → List Constituent → List String → Prop where
  | done (ts : List String) : (ts = [] ∨ (p ts).head? = none) → Greedy p ts [] ts
  | step (ts : List String) (c : Constituent) (ts2 : List String)
      (ch : List Constituent) (rest : List String) :
      ts ≠ [] → (p ts).head? = some (c, ts2) → Greedy p ts2 ch rest →
      Greedy p ts (c :: ch) rest

/-- Nested cross-product semantics in the spec's own words for the sequence
combinator: the list of lists "for every result (c1, T1) of p1(T), for every
result (c2, T2) of p2(T1), the pair (concat(c1, c2), T2)", flattened in that
nesting order. -/
def seqSpec (p1 p2 : Parser) : Parser := fun tokens =>
  ((p1 tokens).map fun r1 => (p2 r1.2).map fun r2 => (concatC r1.1 r2.1, r2.2)).flatten

/-- Claim-side letter class: a word starting with a vowel letter (a letter
among `aeiou`). -/
def startsWithVowelLetter (s : String) : Bool :=
  match s.data with
  | [] => false
  | ch :: _ => ch.isAlpha && (ch = 'a' || ch = 'e' || ch = 'i' || ch = 'o' || ch = 'u')

/-- Claim-side letter class: a word starting with a consonant letter (a
letter other than `aeiou`). -/
def startsWithConsonantLetter (s : String) : Bool :=
  match s.data with
  | [] => false
  | ch :: _ => ch.isAlpha && !(ch = 'a' || ch = 'e' || ch = 'i' || ch = 'o' || ch = 'u')

/-- Unfolding characterization of `treeInvB`. -/
theorem treeInvB_iff (c : Constituent) :
    treeInvB c = true ↔
      (c.children = [] ∨ c.words = (c.children.map Constituent.words).flatten)
        ∧ ∀ x ∈ c.children, treeInvB x = true := by
  cases c with
  | mk t ch w =>
    simp [treeInvB, List.all_eq_true, List.isEmpty_iff]

/-- Membership characterization of the literal parser's results. -/
theorem mem_wordP {w : String} {ts : List String} {r : Constituent × List String} :
    r ∈ wordP w ts ↔ ∃ rest, ts = w :: rest ∧ r = (⟨none, [], [w]⟩, rest) := by
  cases ts with
  | nil => simp [wordP]
  | cons t rest =>
    by_cases h : t = w
    · subst h; simp [wordP]
    · simp [wordP, h, Ne.symm h]

/-- Membership characterization of the sequence combinator's results. -/
theorem mem_seqP {p1 p2 : Parser} {ts : List String} {r : Constituent × List String} :
    r ∈ seqP p1 p2 ts ↔
      ∃ c1 t1 c2 t2, (c1, t1) ∈ p1 ts ∧ (c2, t2) ∈ p2 t1 ∧ r = (concatC c1 c2, t2) := by
  simp only [seqP, List.mem_flatMap, List.mem_map, Prod.exists]
  aesop

/-- Membership characterization of the alternation combinator's results. -/
theorem mem_altP {p1 p2 : Parser} {ts : List String} {r : Constituent × List String} :
    r ∈ altP p1 p2 ts ↔ r ∈ p1 ts ∨ r ∈ p2 ts := by
  simp [altP]

/-- Membership characterization of the tagging combinator's results. -/
theorem mem_tagP {t : String} {p : Parser} {ts : List String} {r : Constituent × List String} :
    r ∈ tagP t p ts ↔ ∃ c t1, (c, t1) ∈ p ts ∧ r = (relabel c t, t1) := by
  simp only [tagP, List.mem_map, Prod.exists]
  aesop

/-- Membership characterization of the filter combinator's results. -/
theorem mem_filterP {q : Constituent → Bool} {p : Parser} {ts : List String}
    {r : Constituent × List String} :
    r ∈ filterP q p ts ↔ r ∈ p ts ∧ q r.1 = true := by
  simp [filterP, List.mem_filter]

/-- Membership characterization of the whole-input combinator's results. -/
theorem mem_wholeP {p : Parser} {ts : List String} {r : Constituent × List String} :
    r ∈ wholeP p ts ↔ r ∈ p ts ∧ r.2 = [] := by
  simp [wholeP, List.mem_filter, List.isEmpty_iff]

/-- Head of a list is a member. -/
theorem mem_of_head? {α : Type} {l : List α} {a : α} (h : l.head? = some a) : a ∈ l := by
  cases l with
  | nil => simp at h
  | cons x xs =>
    simp only [List.head?_cons, Option.some.injEq] at h
    exact h ▸ List.mem_cons_self x xs

/-- Fuel-stability of the star loop: an answer reached with some fuel is the
answer at every larger fuel, so a `some` result is the Python loop's unique
outcome. -/
theorem starLoop_mono {p : Parser} :
    ∀ {fuel fuel' : Nat} {acc : List Constituent} {ts : List String}
      {r : List Constituent × List String},
      fuel ≤ fuel' → starLoop p fuel acc ts = some r → starLoop p fuel' acc ts = some r := by
  intro fuel
  induction fuel with
  | zero =>
    intro fuel' acc ts r _ h
    simp only [starLoop] at h
    rcases e : ts.isEmpty with _ | _
    · rw [e] at h; simp at h
    · cases fuel' <;> simp [starLoop, e] <;> rw [e] at h <;> simpa using h
  | succ n ih =>
    intro fuel' acc ts r hle h
    rcases fuel' with _ | m
    · omega
    rcases e : ts.isEmpty with _ | _
    · simp only [starLoop, e, Bool.false_eq_true, if_false] at h ⊢
      rcases e2 : (p ts).head? with _ | ⟨tree, remainder⟩
      · rw [e2] at h; simpa using h
      · rw [e2] at h
        exact ih (by omega) h
    · simp only [starLoop, e, if_true] at h ⊢
      exact h

/-- Constituents collected by the star loop all satisfy any property that the
underlying parser's results satisfy (together with the ones already
accumulated). -/
theorem starLoop_all {p : Parser} {Q : Constituent → Prop}
    (hp : ∀ ts c r, (c, r) ∈ p ts → Q c) :
    ∀ (fuel : Nat) (acc : List Constituent) (ts : List String)
      (ch : List Constituent) (rest : List String),
      starLoop p fuel acc ts = some (ch, rest) →
      (∀ x ∈ acc, Q x) → ∀ x ∈ ch, Q x := by
  intro fuel
  induction fuel with
  | zero =>
    intro acc ts ch rest h hacc
    simp only [starLoop] at h
    rcases e : ts.isEmpty with _ | _ <;> rw [e] at h <;> simp at h
    exact h.1 ▸ hacc
  | succ n ih =>
    intro acc ts ch rest h hacc
    simp only [starLoop] at h
    rcases e : ts.isEmpty with _ | _ <;> rw [e] at h
    · simp only [Bool.false_eq_true, if_false] at h
      rcases e2 : (p ts).head? with _ | ⟨tree, remainder⟩ <;> rw [e2] at h
      · simp at h
        exact h.1 ▸ hacc
      · refine ih (acc ++ [tree]) remainder ch rest h ?_
        intro x hx
        rcases List.mem_append.mp hx with hx | hx
        · exact hacc x hx
        · simp only [List.mem_singleton] at hx
          exact hx ▸ hp ts tree remainder (mem_of_head? e2)
    · simp at h
      exact h.1 ▸ hacc

/-- Words collected by the star loop reassemble the consumed prefix, when the
underlying parser consumes exactly the prefix spanned by each result. -/
theorem starLoop_consume {p : Parser}
    (hp : ∀ ts c r, (c, r) ∈ p ts → c.words ++ r = ts) :
    ∀ (fuel : Nat) (acc : List Constituent) (ts : List String)
      (ch : List Constituent) (rest : List String),
      starLoop p fuel acc ts = some (ch, rest) →
      ∃ ch2, ch = acc ++ ch2 ∧ (ch2.map Constituent.words).flatten ++ rest = ts := by
  intro fuel
  induction fuel with
  | zero =>
    intro acc ts ch rest h
    simp only [starLoop] at h
    rcases e : ts.isEmpty with _ | _ <;> rw [e] at h <;> simp at h
    exact ⟨[], by simp [h.1.symm, h.2]⟩
  | succ n ih =>
    intro acc ts ch rest h
    simp only [starLoop] at h
    rcases e : ts.isEmpty with _ | _ <;> rw [e] at h
    · simp only [Bool.false_eq_true, if_false] at h
      rcases e2 : (p ts).head? with _ | ⟨tree, remainder⟩ <;> rw [e2] at h
      · simp at h
        exact ⟨[], by simp [h.1.symm, h.2]⟩
      · rcases ih (acc ++ [tree]) remainder ch rest h with ⟨ch2, hch, hw⟩
        refine ⟨tree :: ch2, by simp [hch], ?_⟩
        have := hp ts tree remainder (mem_of_head? e2)
        simp only [List.map_cons, List.flatten_cons, List.append_assoc]
        rw [hw, this]
    · simp at h
      exact ⟨[], by simp [h.1.symm, h.2]⟩

/-- Totality and shape of the star loop under strict consumption: when every
first result of the underlying parser strictly consumes input, fuel exceeding
the input length suffices and the collected children are exactly the greedy
accumulation. -/
theorem starLoop_total {p : Parser} (hp : FirstConsumes p) :
    ∀ (fuel : Nat) (ts : List String) (acc : List Constituent),
      ts.length < fuel →
      ∃ ch rest, starLoop p fuel acc ts = some (acc ++ ch, rest) ∧ Greedy p ts ch rest := by
  intro fuel
  induction fuel with
  | zero =>
    intro ts acc h
    omega
  | succ n ih =>
    intro ts acc hlen
    rcases e : ts.isEmpty with _ | _
    · rcases e2 : (p ts).head? with _ | ⟨tree, remainder⟩
      · refine ⟨[], ts, ?_, Greedy.done ts (Or.inr e2)⟩
        simp [starLoop, e, e2]
      · have hne : ts ≠ [] := by
          intro hts
          rw [hts] at e
          simp at e
        have hcons := hp ts tree remainder e2
        rcases ih remainder (acc ++ [tree]) (by omega) with ⟨ch, rest, hloop, hg⟩
        refine ⟨tree :: ch, rest, ?_, Greedy.step ts tree remainder ch rest hne e2 hg⟩
        simp only [starLoop, e, Bool.false_eq_true, if_false, e2]
        rw [hloop]
        simp
    · have hts : ts = [] := List.isEmpty_iff.mp e
      refine ⟨[], ts, ?_, Greedy.done ts (Or.inl hts)⟩
      simp [starLoop, e]

/-- Leaves of the literal parser satisfy the tree invariant. -/
theorem word_producesInv (w : String) : ProducesInv (wordP w) := by
  intro ts c rest h
  rcases mem_wordP.mp h with ⟨r, _, hr⟩
  cases hr
  rw [treeInvB_iff]
  simp

/-- Literal parsers consume exactly the one matched word. -/
theorem word_consumes (w : String) : Consumes (wordP w) := by
  intro ts c rest h
  rcases mem_wordP.mp h with ⟨r, hts, hr⟩
  cases hr
  exact ⟨by simp [hts], ⟨[w], by simp [hts]⟩⟩

/-- Shape of a literal parser's result: the leaf for the expected word, with
the input having started with that word. -/
theorem wordP_shape {w : String} {ts t1 : List String} {c : Constituent}
    (h : (c, t1) ∈ wordP w ts) : c = ⟨none, [], [w]⟩ ∧ ts = w :: t1 := by
  rcases mem_wordP.mp h with ⟨r, hts, hr⟩
  injection hr with h1 h2
  subst h2
  exact ⟨h1, hts⟩

/-- Relabeling does not affect the tree invariant. -/
theorem treeInvB_relabel (c : Constituent) (t : String) :
    treeInvB (relabel c t) = treeInvB c := by
  cases c with
  | mk tg ch w =>
    show treeInvB ⟨some t, ch, w⟩ = treeInvB ⟨tg, ch, w⟩
    rw [treeInvB, treeInvB]

/-- Concatenation of two invariant-satisfying constituents satisfies the
invariant: the new node's words are precisely its two children's words. -/
theorem treeInvB_concatC {a b : Constituent} (ha : treeInvB a = true)
    (hb : treeInvB b = true) : treeInvB (concatC a b) = true := by
  rw [treeInvB_iff]
  refine ⟨Or.inr ?_, ?_⟩
  · simp [concatC]
  · intro x hx
    simp only [concatC, List.mem_cons, List.mem_singleton, List.not_mem_nil, or_false] at hx
    rcases hx with hx | hx <;> subst hx <;> assumption

/-- Every result of the determiner rule `Compl` is tagged `Compl` and carries
exactly one word, the matched determiner. -/
theorem compl_shape {ts : List String} {c : Constituent} {rest : List String}
    (h : (c, rest) ∈ Compl ts) :
    c.tag = some "Compl" ∧ ∃ w, c.words = [w] := by
  rcases mem_tagP.mp h with ⟨c0, t1, hm, he⟩
  injection he with he1 he2
  subst he1
  subst he2
  have : ∃ w, c0 = (⟨none, [], [w]⟩ : Constituent) := by
    rcases mem_altP.mp hm with hm | hm
    · rcases mem_altP.mp hm with hm | hm <;> exact ⟨_, (wordP_shape hm).1⟩
    · exact ⟨_, (wordP_shape hm).1⟩
  rcases this with ⟨w, rfl⟩
  exact ⟨rfl, w, rfl⟩

/-- Every result of the adjective rule `Adj` carries exactly one word and
strictly consumes the input. -/
theorem adj_shape {ts : List String} {c : Constituent} {rest : List String}
    (h : (c, rest) ∈ Adj ts) :
    (∃ w, c.words = [w]) ∧ rest.length < ts.length := by
  rcases mem_tagP.mp h with ⟨c0, t1, hm, he⟩
  injection he with he1 he2
  subst he1
  subst he2
  have : ∃ w, c0 = (⟨none, [], [w]⟩ : Constituent) ∧ ts = w :: rest := by
    rcases mem_altP.mp hm with hm | hm
    · rcases mem_altP.mp hm with hm | hm
      · rcases mem_altP.mp hm with hm | hm
        · rcases mem_altP.mp hm with hm | hm <;>
            exact ⟨_, (wordP_shape hm).1, (wordP_shape hm).2⟩
        · exact ⟨_, (wordP_shape hm).1, (wordP_shape hm).2⟩
      · exact ⟨_, (wordP_shape hm).1, (wordP_shape hm).2⟩
    · exact ⟨_, (wordP_shape hm).1, (wordP_shape hm).2⟩
  rcases this with ⟨w, rfl, hts⟩
  exact ⟨⟨w, rfl⟩, by simp [hts]⟩

/-- Every constituent the noun-phrase core `NP0` produces, at any unfolding
depth, has a non-empty word list: the `N` branch matches a noun, the
`Adj + NP0` branch starts with an adjective's word. -/
theorem np0_words_ne {n : Nat} :
    ∀ {ts : List String} {c : Constituent} {rest : List String},
      (c, rest) ∈ recP np0body n ts → c.words ≠ [] := by
  induction n with
  | zero =>
    intro ts c rest h
    simp [recP] at h
  | succ m ih =>
    intro ts c rest h
    simp only [recP, np0body] at h
    rcases mem_tagP.mp h with ⟨c0, t1, hm, he⟩
    injection he with he1 he2
    subst he1
    subst he2
    rcases mem_altP.mp hm with hm | hm
    · rcases mem_tagP.mp hm with ⟨c1, t2, hm1, he1⟩
      injection he1 with hb1 hb2
      subst hb1
      subst hb2
      have : ∃ w, c1 = (⟨none, [], [w]⟩ : Constituent) := by
        rcases mem_altP.mp hm1 with h1 | h1
        · rcases mem_altP.mp h1 with h1 | h1
          · rcases mem_altP.mp h1 with h1 | h1 <;> exact ⟨_, (wordP_shape h1).1⟩
          · exact ⟨_, (wordP_shape h1).1⟩
        · exact ⟨_, (wordP_shape h1).1⟩
      rcases this with ⟨w, rfl⟩
      simp [relabel]
    · rcases mem_seqP.mp hm with ⟨c1, t1', c2, t2, hm1, hm2, he1⟩
      injection he1 with hb1 hb2
      subst hb1
      subst hb2
      rcases adj_shape hm1 with ⟨⟨w, hw⟩, _⟩
      simp [relabel, concatC, hw]

mutual

/-- Python structural equality agrees with propositional equality. -/
theorem ceq_iff : ∀ a b : Constituent, ceq a b = true ↔ a = b
  | ⟨t1, ch1, w1⟩, ⟨t2, ch2, w2⟩ => by
    simp only [ceq, Bool.and_eq_true, beq_iff_eq, Constituent.mk.injEq]
    rw [ceqChildren_iff ch1 ch2]
    tauto

theorem ceqChildren_iff : ∀ l1 l2 : List Constituent, ceqChildren l1 l2 = true ↔ l1 = l2
  | [], [] => by simp [ceqChildren]
  | x :: xs, y :: ys => by
    simp only [ceqChildren, Bool.and_eq_true, List.cons.injEq]
    rw [ceq_iff x y, ceqChildren_iff xs ys]
  | [], _ :: _ => by simp [ceqChildren]
  | _ :: _, [] => by simp [ceqChildren]

end

/-- Every first result of a literal parser strictly consumes one token. -/
theorem word_firstConsumes (w : String) : FirstConsumes (wordP w) := by
  intro ts c rest h
  rcases wordP_shape (mem_of_head? h) with ⟨_, hts⟩
  simp [hts]

/-- Claim C1: on any token sequence, the sequence combinator produces exactly
the pairs (concat(c1, c2), T2) for every result (c1, T1) of p1(T) and every
result (c2, T2) of p2(T1), in nested cross-product order (p1's first
alternative fully explored via p2 before p1's second), and its result count
is the sum, over p1's results, of the count of p2's results on that result's
remainder. -/
theorem seq_cross_product (p1 p2 : Parser) (ts : List String) :
    seqP p1 p2 ts = seqSpec p1 p2 ts
      ∧ (seqP p1 p2 ts).length = ((p1 ts).map fun r => (p2 r.2).length).sum := by
  constructor
  · simp [seqP, seqSpec, List.flatMap_def]
  · simp [seqP, List.length_flatMap, Function.comp_def]

/-- Claim C2: the four star scenarios of the test suite, exactly.
`star(word('a'))` on `['a','b']` gives one leaf child for `a` and remainder
`['b']`; `star(word('a')|word('b'))` on `['a','b','c']` gives leaf children
for `a` and `b` and remainder `['c']`; on `['a','b','b']` three leaf children
and empty remainder; on `['c']` no children and remainder `['c']`. -/
theorem star_scenarios :
    starCall (wordP "a") ["a", "b"]
        = some [(⟨none, [⟨none, [], ["a"]⟩], ["a"]⟩, ["b"])]
      ∧ starCall (altP (wordP "a") (wordP "b")) ["a", "b", "c"]
        = some [(⟨none, [⟨none, [], ["a"]⟩, ⟨none, [], ["b"]⟩], ["a", "b"]⟩, ["c"])]
      ∧ starCall (altP (wordP "a") (wordP "b")) ["a", "b", "b"]
        = some [(⟨none, [⟨none, [], ["a"]⟩, ⟨none, [], ["b"]⟩, ⟨none, [], ["b"]⟩],
            ["a", "b", "b"]⟩, [])]
      ∧ starCall (altP (wordP "a") (wordP "b")) ["c"]
        = some [(⟨none, [], []⟩, ["c"])] :=
  ⟨rfl, rfl, rfl, rfl⟩

/-- Claim C5: parsing `['the','quick','brown','fox','jumped']` with the
whole-input-anchored sentence rule yields at least one result tagged `S`
whose words are exactly the input tokens. -/
theorem sentence_end_to_end :
    (wholeP S ["the", "quick", "brown", "fox", "jumped"]).any
      (fun r => r.1.tag == some "S"
        && r.1.words == ["the", "quick", "brown", "fox", "jumped"]) = true := by
  decide

/-- Claim C8: constituent equality is structural, reflexive and symmetric;
it holds exactly when tag, children and words agree; comparison against a
non-`Constituent` value returns false; and inequality is the exact negation
of equality. -/
theorem constituent_equality_laws (a b : Constituent) (v : PyVal) :
    ceq a a = true
      ∧ ceq a b = ceq b a
      ∧ (ceq a b = true ↔ a.tag = b.tag ∧ a.children = b.children ∧ a.words = b.words)
      ∧ eqPy a PyVal.other = false
      ∧ nePy a v = !(eqPy a v) := by
  refine ⟨(ceq_iff a a).mpr rfl, ?_, ?_, rfl, rfl⟩
  · rw [Bool.eq_iff_iff, ceq_iff, ceq_iff]
    exact eq_comm
  · rw [ceq_iff]
    cases a
    cases b
    simp [Constituent.mk.injEq]

/-- Claim C9: the tag combinator preserves every result's children, words and
remainder, as well as the number and order of results, replacing only the
tag of the result at each position by the given label. -/
theorem tag_frame (L : String) (p : Parser) (ts : List String) (i : Nat) :
    (tagP L p ts).length = (p ts).length
      ∧ ((tagP L p ts)[i]?.map fun r => r.1.children) = ((p ts)[i]?.map fun r => r.1.children)
      ∧ ((tagP L p ts)[i]?.map fun r => r.1.words) = ((p ts)[i]?.map fun r => r.1.words)
      ∧ ((tagP L p ts)[i]?.map fun r => r.2) = ((p ts)[i]?.map fun r => r.2)
      ∧ ((tagP L p ts)[i]?.map fun r => r.1.tag) = ((p ts)[i]?.map fun _ => some L) := by
  refine ⟨by simp [tagP], ?_, ?_, ?_, ?_⟩ <;>
    simp [tagP, List.getElem?_map, Option.map_map, Function.comp_def, relabel]

/-- First result of `star(word('a'))` on the non-matching input `['c']`: the
empty constituent with the input unconsumed.  This is the zero-consumption
result that makes an enclosing star loop spin forever. -/
theorem starP_word_on_c : starP (wordP "a") ["c"] = [(⟨none, [], []⟩, ["c"])] := rfl

/-- The star loop over `star(word('a'))` never leaves the state `['c']`,
whatever the fuel and whatever has been accumulated. -/
theorem starP_selfloop :
    ∀ (fuel : Nat) (acc : List Constituent),
      starLoop (starP (wordP "a")) fuel acc ["c"] = none := by
  intro fuel
  induction fuel with
  | zero =>
    intro acc
    simp [starLoop]
  | succ n ih =>
    intro acc
    have hhead : ((starP (wordP "a")) ["c"]).head? = some (⟨none, [], []⟩, ["c"]) := by
      rw [starP_word_on_c]
      rfl
    simp only [starLoop, List.isEmpty_cons, Bool.false_eq_true, if_false, hhead]
    exact ih (acc ++ [⟨none, [], []⟩])

/-- Claim C3, counterexample: the underlying parser `star(word('a'))` —
itself built from the engine's combinators — yields a first result on `['c']`
that consumes nothing, so `star(star(word('a')))` invoked on `['c']` never
terminates: no number of loop iterations finishes.  This refutes termination
for every underlying parser and every token sequence. -/
theorem star_divergence_counterexample :
    starDiverges (starP (wordP "a")) ["c"] :=
  fun fuel => starP_selfloop fuel []

/-- Claim C3, amended: whenever every first result of the underlying parser
strictly consumes input, `star(p)` on any tokens terminates (fuel one more
than the input length suffices) and produces exactly one overall result: the
constituent collecting the greedily accumulated first-results of `p` as
children, with their concatenated words, paired with the unconsumed tokens —
the accumulation stopping exactly when `p` yields nothing at the current
position or the token sequence is empty (the `Greedy` relation). -/
theorem star_greedy_terminates (p : Parser) (ts : List String) (hp : FirstConsumes p) :
    ∃ ch rest,
      starCall p ts = some [(⟨none, ch, (ch.map Constituent.words).flatten⟩, rest)]
        ∧ Greedy p ts ch rest := by
  rcases starLoop_total hp (ts.length + 1) ts [] (by omega) with ⟨ch, rest, hloop, hg⟩
  refine ⟨ch, rest, ?_, hg⟩
  simp only [starCall, starCallF, List.nil_append] at hloop ⊢
  rw [hloop]
  rfl

/-- Witness for `star_greedy_terminates` at `p = word('a')`, `ts = ['a','b']`. -/
theorem star_greedy_terminates_witness :
    ∃ ch rest,
      starCall (wordP "a") ["a", "b"]
          = some [(⟨none, ch, (ch.map Constituent.words).flatten⟩, rest)]
        ∧ Greedy (wordP "a") ["a", "b"] ch rest :=
  star_greedy_terminates (wordP "a") ["a", "b"] (word_firstConsumes "a")

/-- Claim C4, counterexample: a constituent whose first child is tagged
`Compl`, with words `['an','1a']`.  The second word starts with a digit, so
it starts with neither a vowel letter nor a consonant letter; the claim's
characterization therefore demands the predicate be true, yet the code's
predicate (`re.match('[aeiou]', '1a')` finds nothing) is false. -/
theorem article_letter_counterexample :
    validArticle
        (⟨none, [⟨some "Compl", [], ["an"]⟩, ⟨some "N", [], ["1a"]⟩], ["an", "1a"]⟩ :
          Constituent) = false
      ∧ startsWithConsonantLetter "1a" = false
      ∧ startsWithVowelLetter "1a" = false := by
  decide

/-- Claim C4, amended: the predicate is true unless the first child is tagged
`Compl` and either the first word is `a` with the second word empty or
starting with one of the characters `aeiou` (so that `re.match('[^aeiou]')`
finds nothing), or the first word is `an` with the second word empty or not
starting with one of `aeiou` (so that `re.match('[aeiou]')` finds nothing);
`the` always passes, and so does any constituent without a `Compl`-tagged
first child.  Against the rule `NP`, `['a','fox']` and `['an','ant']` are
accepted while `['an','fox']` and `['a','ant']` are rejected. -/
theorem article_filter_characterization :
    (∀ c : Constituent,
      validArticle c = false ↔
        (∃ ch, c.children.head? = some ch ∧ ch.tag = some "Compl")
          ∧ ((c.words.getD 0 "" = "a" ∧ startsWithNonVowel (c.words.getD 1 "") = false)
              ∨ (c.words.getD 0 "" = "an" ∧ startsWithVowel (c.words.getD 1 "") = false)))
      ∧ NP ["a", "fox"] ≠ []
      ∧ NP ["an", "fox"] = []
      ∧ NP ["a", "ant"] = []
      ∧ NP ["an", "ant"] ≠ [] := by
  refine ⟨?_, by decide, by decide, by decide, by decide⟩
  intro c
  rcases e : c.children.head? with _ | child
  · simp [validArticle, e]
  · by_cases htag : child.tag = some "Compl"
    · by_cases h0 : c.words[0]?.getD "" = "a"
      · simp [validArticle, e, htag, h0]
      · by_cases h1 : c.words[0]?.getD "" = "an"
        · simp [validArticle, e, htag, h0, h1]
        · simp [validArticle, e, htag, h0, h1]
    · simp [validArticle, e, htag]

/-- Claim C6: every constituent produced by any combinator invocation of the
engine satisfies the tree invariant — a node with children carries exactly
the in-order concatenation of its children's word lists, a literal leaf
carries exactly the one matched word — compositionally: each combinator
preserves the invariant from its sub-parsers (for the recursive combinator,
from its body; for star, at every fuel at which the loop finishes). -/
theorem engine_tree_invariant (w L : String) (pred : Constituent → Bool)
    (p1 p2 : Parser) (f : Parser → Parser)
    (h1 : ProducesInv p1) (h2 : ProducesInv p2)
    (hf : ∀ q, ProducesInv q → ProducesInv (f q)) :
    (∀ ts c rest, (c, rest) ∈ wordP w ts →
        treeInvB c = true ∧ c.children = [] ∧ c.words = [w])
      ∧ ProducesInv (seqP p1 p2)
      ∧ ProducesInv (altP p1 p2)
      ∧ ProducesInv (tagP L p1)
      ∧ ProducesInv (filterP pred p1)
      ∧ ProducesInv (wholeP p1)
      ∧ (∀ n, ProducesInv (recP f n))
      ∧ (∀ fuel ts res, starCallF p1 fuel ts = some res →
          ∀ c rest, (c, rest) ∈ res → treeInvB c = true) := by
  refine ⟨?_, ?_, ?_, ?_, ?_, ?_, ?_, ?_⟩
  · intro ts c rest h
    rcases wordP_shape h with ⟨rfl, _⟩
    exact ⟨word_producesInv w ts _ rest h, rfl, rfl⟩
  · intro ts c rest h
    rcases mem_seqP.mp h with ⟨c1, t1, c2, t2, hm1, hm2, he⟩
    injection he with hb1 hb2
    subst hb1
    exact treeInvB_concatC (h1 ts c1 t1 hm1) (h2 t1 c2 t2 hm2)
  · intro ts c rest h
    rcases mem_altP.mp h with h | h
    · exact h1 ts c rest h
    · exact h2 ts c rest h
  · intro ts c rest h
    rcases mem_tagP.mp h with ⟨c0, t1, hm, he⟩
    injection he with hb1 hb2
    subst hb1
    rw [treeInvB_relabel]
    exact h1 ts c0 t1 hm
  · intro ts c rest h
    exact h1 ts c rest (mem_filterP.mp h).1
  · intro ts c rest h
    exact h1 ts c rest (mem_wholeP.mp h).1
  · intro n
    induction n with
    | zero => intro ts c rest h; simp [recP] at h
    | succ m ih => exact hf (recP f m) ih
  · intro fuel ts res hres c rest hmem
    rcases Option.map_eq_some'.mp hres with ⟨⟨ch, rem⟩, hloop, hform⟩
    subst hform
    simp only [List.mem_singleton] at hmem
    injection hmem with hb1 hb2
    subst hb1
    rw [treeInvB_iff]
    refine ⟨Or.inr rfl, ?_⟩
    intro x hx
    exact starLoop_all (fun a b c h => h1 a b c h) fuel [] ts ch rem hloop
      (by intro y hy; simp at hy) x hx

/-- Witness for `engine_tree_invariant` with literal sub-parsers, the trivial
predicate and the identity recursion body. -/
theorem engine_tree_invariant_witness :
    (∀ ts c rest, (c, rest) ∈ wordP "a" ts →
        treeInvB c = true ∧ c.children = [] ∧ c.words = ["a"])
      ∧ ProducesInv (seqP (wordP "a") (wordP "b"))
      ∧ ProducesInv (altP (wordP "a") (wordP "b"))
      ∧ ProducesInv (tagP "X" (wordP "a"))
      ∧ ProducesInv (filterP (fun _ => true) (wordP "a"))
      ∧ ProducesInv (wholeP (wordP "a"))
      ∧ (∀ n, ProducesInv (recP (fun q => q) n))
      ∧ (∀ fuel ts res, starCallF (wordP "a") fuel ts = some res →
          ∀ c rest, (c, rest) ∈ res → treeInvB c = true) :=
  engine_tree_invariant "a" "X" (fun _ => true) (wordP "a") (wordP "b") (fun q => q)
    (word_producesInv "a") (word_producesInv "b") (fun _ h => h)

/-- Claim C7: every combinator consumes exactly the prefix spanned by the
constituent it returns — each result's remainder is a suffix of the input and
the constituent's words followed by the remainder reassemble the input —
compositionally: each combinator preserves the property from its sub-parsers
(for the recursive combinator, from its body; for star, at every fuel at
which the loop finishes). -/
theorem engine_prefix_consumption (w L : String) (pred : Constituent → Bool)
    (p1 p2 : Parser) (f : Parser → Parser)
    (h1 : Consumes p1) (h2 : Consumes p2)
    (hf : ∀ q, Consumes q → Consumes (f q)) :
    Consumes (wordP w)
      ∧ Consumes (seqP p1 p2)
      ∧ Consumes (altP p1 p2)
      ∧ Consumes (tagP L p1)
      ∧ Consumes (filterP pred p1)
      ∧ Consumes (wholeP p1)
      ∧ (∀ n, Consumes (recP f n))
      ∧ (∀ fuel ts res, starCallF p1 fuel ts = some res →
          ∀ c rest, (c, rest) ∈ res → c.words ++ rest = ts ∧ rest.IsSuffix ts) := by
  refine ⟨word_consumes w, ?_, ?_, ?_, ?_, ?_, ?_, ?_⟩
  · intro ts c rest h
    rcases mem_seqP.mp h with ⟨c1, t1, c2, t2, hm1, hm2, he⟩
    have e1 := (h1 ts c1 t1 hm1).1
    have e2 := (h2 t1 c2 t2 hm2).1
    injection he with hb1 hb2
    subst hb1
    subst hb2
    have heq : (concatC c1 c2).words ++ rest = ts := by
      simp only [concatC, List.append_assoc]
      rw [e2, e1]
    exact ⟨heq, ⟨(concatC c1 c2).words, heq⟩⟩
  · intro ts c rest h
    rcases mem_altP.mp h with h | h
    · exact h1 ts c rest h
    · exact h2 ts c rest h
  · intro ts c rest h
    rcases mem_tagP.mp h with ⟨c0, t1, hm, he⟩
    have e0 := (h1 ts c0 t1 hm).1
    injection he with hb1 hb2
    subst hb1
    subst hb2
    exact ⟨e0, ⟨c0.words, e0⟩⟩
  · intro ts c rest h
    exact h1 ts c rest (mem_filterP.mp h).1
  · intro ts c rest h
    exact h1 ts c rest (mem_wholeP.mp h).1
  · intro n
    induction n with
    | zero => intro ts c rest h; simp [recP] at h
    | succ m ih => exact hf (recP f m) ih
  · intro fuel ts res hres c rest hmem
    rcases Option.map_eq_some'.mp hres with ⟨⟨ch, rem⟩, hloop, hform⟩
    subst hform
    simp only [List.mem_singleton] at hmem
    injection hmem with hb1 hb2
    subst hb1
    subst hb2
    rcases starLoop_consume (fun a b c h => (h1 a b c h).1) fuel [] ts ch rest hloop
      with ⟨ch2, hch, hwords⟩
    simp only [List.nil_append] at hch
    subst hch
    exact ⟨hwords, ⟨(ch.map Constituent.words).flatten, hwords⟩⟩

/-- Witness for `engine_prefix_consumption` with literal sub-parsers, the
trivial predicate and the identity recursion body. -/
theorem engine_prefix_consumption_witness :
    Consumes (wordP "a")
      ∧ Consumes (seqP (wordP "a") (wordP "b"))
      ∧ Consumes (altP (wordP "a") (wordP "b"))
      ∧ Consumes (tagP "X" (wordP "a"))
      ∧ Consumes (filterP (fun _ => true) (wordP "a"))
      ∧ Consumes (wholeP (wordP "a"))
      ∧ (∀ n, Consumes (recP (fun q => q) n))
      ∧ (∀ fuel ts res, starCallF (wordP "a") fuel ts = some res →
          ∀ c rest, (c, rest) ∈ res → c.words ++ rest = ts ∧ rest.IsSuffix ts) :=
  engine_prefix_consumption "a" "X" (fun _ => true) (wordP "a") (wordP "b") (fun q => q)
    (word_consumes "a") (word_consumes "b") (fun _ h => h)

/-- Claim C10: every constituent the underlying parser `Compl + NP0` of the
noun-phrase rule hands to the article-agreement predicate has at least two
words whenever its first child is tagged `Compl` (in fact unconditionally),
so the predicate's accesses to `words[0]` and `words[1]` are in bounds. -/
theorem np_words_in_bounds (ts : List String) (c : Constituent) (rest : List String)
    (ch : Constituent) (hmem : (c, rest) ∈ seqP Compl NP0 ts)
    (hch : c.children.head? = some ch) (_htag : ch.tag = some "Compl") :
    2 ≤ c.words.length := by
  rcases mem_seqP.mp hmem with ⟨c1, t1, c2, t2, hm1, hm2, he⟩
  injection he with hb1 hb2
  subst hb1
  rcases compl_shape hm1 with ⟨_, w, hw⟩
  have h2w : c2.words ≠ [] := np0_words_ne (n := t1.length + 1) hm2
  have h2len : c2.words.length ≠ 0 := by
    simpa [List.length_eq_zero] using h2w
  simp only [concatC, hw, List.length_append, List.length_cons, List.length_nil]
  omega

/-- Witness for `np_words_in_bounds` at the parse of `['a','fox']`. -/
theorem np_words_in_bounds_witness :
    ((⟨none, [⟨some "Compl", [], ["a"]⟩, ⟨some "NP", [], ["fox"]⟩], ["a", "fox"]⟩ :
        Constituent), ([] : List String)) ∈ seqP Compl NP0 ["a", "fox"]
      ∧ (⟨some "Compl", [], ["a"]⟩ : Constituent).tag = some "Compl"
      ∧ 2 ≤ (["a", "fox"] : List String).length :=
  ⟨by decide, rfl,
    np_words_in_bounds ["a", "fox"]
      ⟨none, [⟨some "Compl", [], ["a"]⟩, ⟨some "NP", [], ["fox"]⟩], ["a", "fox"]⟩
      [] ⟨some "Compl", [], ["a"]⟩ (by decide) rfl rfl⟩
